import Mathlib

/-!
Verification development for the target-computation engine of the
Investment-system repository (`ml_investment/targets.py`).

Shallow embedding conventions:
* Dates and column values are rationals (`ℚ`); a date is stored as the
  `"date"` column of a record, exactly as in the source data frames.
* A record of a quarterly or daily series is a `Row`: a mapping from
  column names to values.
* A pandas `NaN`/null cell is `none : Option ℚ`.
* An exception raised by `calculate` (the failed `assert` of
  `QuarterlyTarget._single_ticker_target`) is `none` at the
  `Option (List TRow)` result type: no table is produced at all.
* The data loaders are functions from a ticker to the rows the provider
  returns for it (daily loading may signal absence with `none`, matching
  `load_daily_data` returning `None`).
-/

/-- One record (row) of a quarterly or daily data frame: a mapping from
column names to values.  The report / calendar date is the `"date"`
column, as in the source data. -/
structure Row where
  cols : String → ℚ

/-- The date field of a record (`row['date']`). -/
def Row.date (r : Row) : ℚ := r.cols "date"

/-- Build a record with the given date whose every other column holds `v`
(enough structure for single-column examples). -/
def mkRow (d v : ℚ) : Row :=
  ⟨fun c => if c = "date" then d else v⟩

/-- One row of a result table: ticker, date, and the `y` value (possibly
null). -/
abbrev TRow := String × ℚ × Option ℚ

/-- The (ticker, date) key of a result row. -/
def rowKey (r : TRow) : String × ℚ :=
  (r.1, r.2.1)

/-- Index of the first element equal to `d`
(`np.where(dates == date)[0][0]`), `none` when there is no match. -/
def firstMatchIdx (d : ℚ) : List ℚ → Option Nat
  | [] => none
  | x :: xs => if x = d then some 0 else (firstMatchIdx d xs).map Nat.succ

/-- `QuarterlyTarget._single_ticker_target`, one date of the loop.
`qd` is the list the engine indexes into, i.e. the provider data already
reversed (`load_quarterly_data([ticker])[::-1]`).  The outer `none`
models the failed `assert np.datetime64(date) in quarter_dates`; the
inner `Option` is the `np.nan` produced when
`curr_quarter_idx + quarter_shift` leaves `[0, len)`. -/
def quarterlyValueAt (col : String) (shift : Int) (qd : List Row) (d : ℚ) :
    Option (Option ℚ) :=
  match firstMatchIdx d (qd.map Row.date) with
  | none => none
  | some i =>
      let idx : Int := (i : Int) + shift
      if 0 ≤ idx ∧ idx < (qd.length : Int) then
        some ((qd.get? idx.toNat).map (fun r => r.cols col))
      else
        some none

/-- `DailyAggTarget._single_ticker_target`, one date of the loop.
`dd` is the list the engine indexes into (`daily_data[::-1]`).
`horizon ≥ 0`: rows with `date ≥ d`, python slice `[:horizon]`;
`horizon < 0`: rows with `date < d`, python slice `[horizon:]` (the last
`|horizon|` entries).  `foo` is the aggregation; it returns `none` for a
NaN result (e.g. the mean of an empty window). -/
def dailyValueAt (col : String) (horizon : Int) (foo : List ℚ → Option ℚ)
    (dd : List Row) (d : ℚ) : Option ℚ :=
  if 0 ≤ horizon then
    foo (((dd.filter (fun r => decide (d ≤ r.date))).map
      (fun r => r.cols col)).take horizon.toNat)
  else
    let s := (dd.filter (fun r => decide (r.date < d))).map
      (fun r => r.cols col)
    foo (s.drop (s.length - (-horizon).toNat))

/-- Per-date value of `DailyAggTarget` for one ticker: `load_daily_data`
returning `None` leaves `y = None` for every requested date; otherwise
the loaded (ascending) data is reversed and aggregated. -/
def dailySingleValue (col : String) (horizon : Int) (foo : List ℚ → Option ℚ)
    (dd? : Option (List Row)) (d : ℚ) : Option ℚ :=
  match dd? with
  | none => none
  | some dd => dailyValueAt col horizon foo dd.reverse d

/-- `np.mean` over rationals: NaN (`none`) on the empty list. -/
def listMean (l : List ℚ) : Option ℚ :=
  if l.isEmpty then none else some (l.sum / (l.length : ℚ))

/-- Distinct tickers of a list (set of group keys). -/
def dedupTickers : List String → List String
  | [] => []
  | x :: xs =>
      if x ∈ dedupTickers xs then dedupTickers xs else x :: dedupTickers xs

/-- Insertion into a sorted list of tickers. -/
def insertSorted (x : String) : List String → List String
  | [] => [x]
  | y :: ys => if x ≤ y then x :: y :: ys else y :: insertSorted x ys

/-- Sorted group keys (pandas `groupby` sorts the ticker keys). -/
def sortTickers : List String → List String
  | [] => []
  | x :: xs => insertSorted x (sortTickers xs)

/-- Dates requested for ticker `t`, in original request-row order
(`groupby('ticker')['date'].apply(list)` keeps the within-group order). -/
def datesOf (info : List (String × ℚ)) (t : String) : List ℚ :=
  (info.filter (fun p => decide (p.1 = t))).map Prod.snd

/-- The grouped work items `[(ticker, dates)]` fed to the worker pool. -/
def groupByTicker (info : List (String × ℚ)) : List (String × List ℚ) :=
  (sortTickers (dedupTickers (info.map Prod.fst))).map
    (fun t => (t, datesOf info t))

/-- Sequencing of fallible per-element computations: `none` as soon as
one element fails (one worker raising aborts the whole calculation). -/
def optMapM (f : α → Option β) : List α → Option (List β)
  | [] => some []
  | a :: as =>
      match f a, optMapM f as with
      | some b, some bs => some (b :: bs)
      | _, _ => none

/-- The per-ticker partial table built by a worker: one row per requested
date, `result['y'] = vals`. -/
def tickerTable (t : String) : List ℚ → List (Option ℚ) → List TRow
  | d :: ds, v :: vs => (t, d, v) :: tickerTable t ds vs
  | _, _ => []

/-- `drop_duplicates(['ticker', 'date'])`: keep the first row of each
(ticker, date) key. -/
def dedupKeys (seen : List (String × ℚ)) : List TRow → List TRow
  | [] => []
  | r :: rs =>
      if rowKey r ∈ seen then dedupKeys seen rs
      else r :: dedupKeys (rowKey r :: seen) rs

/-- First row of the table carrying the given key (the row a left merge
picks once keys are unique). -/
def findRow (k : String × ℚ) : List TRow → Option TRow
  | [] => none
  | r :: rs => if rowKey r = k then some r else findRow k rs

/-- `pd.merge(info_df, result, on=['ticker','date'], how='left')` with a
key-unique right table: one output row per request row, in request
order, `y` null where the key is unmatched. -/
def leftMerge (info : List (String × ℚ)) (tbl : List TRow) : List TRow :=
  info.map (fun p => (p.1, p.2, (findRow p tbl).bind (fun r => r.2.2)))

/-- The shared `calculate` pipeline of `QuarterlyTarget` and
`DailyAggTarget`: group the request rows by ticker, resolve every date of
every group (`g` is the per-ticker, per-date resolver; `none` models a
raised exception), concatenate the partial tables, deduplicate by
(ticker, date) and left-merge back onto the request table. -/
def calcPipeline (g : String → ℚ → Option (Option ℚ))
    (info : List (String × ℚ)) : Option (List TRow) :=
  match optMapM
      (fun gr => Option.map (tickerTable gr.1 gr.2) (optMapM (g gr.1) gr.2))
      (groupByTicker info) with
  | none => none
  | some parts => some (leftMerge info (dedupKeys [] parts.flatten))

/-- `QuarterlyTarget(col, quarter_shift).calculate(data_loader, info_df)`;
the provider data for each ticker is reversed before indexing. -/
def quarterlyCalculate (col : String) (shift : Int)
    (loader : String → List Row) (info : List (String × ℚ)) :
    Option (List TRow) :=
  calcPipeline (fun t d => quarterlyValueAt col shift ((loader t).reverse) d)
    info

/-- `DailyAggTarget(col, horizon, foo).calculate(data_loader, info_df)`;
per-date resolution never raises. -/
def dailyCalculate (col : String) (horizon : Int) (foo : List ℚ → Option ℚ)
    (loader : String → Option (List Row)) (info : List (String × ℚ)) :
    Option (List TRow) :=
  calcPipeline (fun t d => some (dailySingleValue col horizon foo (loader t) d))
    info

/-- The quarterly value a successful `calculate` puts in the row of
(ticker `t`, date `d`). -/
def quarterlyValueOf (col : String) (shift : Int)
    (loader : String → List Row) (t : String) (d : ℚ) : Option ℚ :=
  (quarterlyValueAt col shift ((loader t).reverse) d).getD none

/-- Pandas subtraction of two possibly-null cells. -/
def subOpt (a b : Option ℚ) : Option ℚ :=
  match a, b with
  | some x, some y => some (x - y)
  | _, _ => none

/-- Normalisation `y / abs(last)`; a zero or null normaliser propagates a
non-finite / null cell, modelled as `none`. -/
def normOpt (diff last : Option ℚ) : Option ℚ :=
  match diff, last with
  | some x, some y => if y = 0 then none else some (x / |y|)
  | _, _ => none

/-- `QuarterlyDiffTarget(col, norm).calculate`: current-quarter pass minus
previous-quarter pass, combined row by row. -/
def quarterlyDiffCalculate (col : String) (norm : Bool)
    (loader : String → List Row) (info : List (String × ℚ)) :
    Option (List TRow) :=
  match quarterlyCalculate col 0 loader info,
      quarterlyCalculate col (-1) loader info with
  | some curr, some last =>
      some (List.zipWith
        (fun a b : TRow =>
          (a.1, a.2.1,
            if norm then normOpt (subOpt a.2.2 b.2.2) b.2.2
            else subOpt a.2.2 b.2.2))
        curr last)
  | _, _ => none

/-- The binarisation of `QuarterlyBinDiffTarget`: non-null cells become
`(y > 0)` cast to float, null cells stay null. -/
def binEncode (v : Option ℚ) : Option ℚ :=
  v.map (fun x => if 0 < x then (1 : ℚ) else 0)

/-- `QuarterlyBinDiffTarget(col).calculate`: the un-normalised quarterly
diff, binarised. -/
def quarterlyBinDiffCalculate (col : String) (loader : String → List Row)
    (info : List (String × ℚ)) : Option (List TRow) :=
  (quarterlyDiffCalculate col false loader info).map
    (List.map (fun r => (r.1, r.2.1, binEncode r.2.2)))

/-- Per-date semantics of the two-pass composition used by
`DailySmoothedQuarterlyDiffTarget`: first resolve the request date to the
offset −1 quarter's `date` value, then read `col` at offset 0 with the
resolved date as the new request date.  A null resolved date becomes
`NaT` in the second pass's request; `NaT` compares unequal to every
quarter date, so the second pass's exact-match `assert` fails and the
whole composed calculation raises (`none`). -/
def composedQuarterlyValueAt (col : String) (qd : List Row) (d : ℚ) :
    Option (Option ℚ) :=
  match quarterlyValueAt "date" (-1) qd d with
  | none => none
  | some none => none
  | some (some d2) => quarterlyValueAt col 0 qd d2

/-- Quarterly provider with one entity whose series is ascending by date:
quarters at dates 1, 2, 3 with `"v"` values 10, 20, 30. -/
def exQL : String → List Row :=
  fun _ => [mkRow 1 10, mkRow 2 20, mkRow 3 30]

/-- Daily provider, ascending: values 10, 20, 30, 40 on dates D, D+1,
D+2, D+3 with D = 0 (the series of the spec's worked example). -/
def exDL : String → Option (List Row) :=
  fun _ => some [mkRow 0 10, mkRow 1 20, mkRow 2 30, mkRow 3 40]

/-- Daily provider, ascending, five days 0..4 with values 10..50. -/
def exDL5 : String → Option (List Row) :=
  fun _ => some [mkRow 0 10, mkRow 1 20, mkRow 2 30, mkRow 3 40, mkRow 4 50]

/-- An internally-reversed quarterly series of three quarters (index 0
newest), used for the two-pass composition examples. -/
def exQD : List Row := [mkRow 3 30, mkRow 2 20, mkRow 1 10]

/-- An internally-reversed quarterly series of two quarters. -/
def exQD2 : List Row := [mkRow 5 50, mkRow 1 10]

/-- Quarterly provider whose `"v"` column moves from 10 to 5 between the
two quarters (an un-normalised diff of +5 at the older date). -/
def exL9 : String → List Row :=
  fun _ => [mkRow 1 10, mkRow 2 5]

/-- Quarterly provider whose `"v"` column is constant (zero diff). -/
def exL10 : String → List Row :=
  fun _ => [mkRow 1 7, mkRow 2 7]

/-- Daily provider with no history at all for ticker `"A"` and a two-day
history for every other ticker. -/
def exDL7 : String → Option (List Row) :=
  fun t => if t = "A" then none else some [mkRow 1 10, mkRow 2 20]

/-! ### Helper lemmas about the pipeline's list operations -/

theorem mem_dedupTickers (l : List String) :
    ∀ a, a ∈ dedupTickers l ↔ a ∈ l := by
  induction l with
  | nil => intro a; simp [dedupTickers]
  | cons x xs ih =>
      intro a
      simp only [dedupTickers]
      by_cases hx : x ∈ dedupTickers xs
      · rw [if_pos hx, ih a, List.mem_cons]
        constructor
        · exact Or.inr
        · rintro (rfl | h)
          · exact (ih a).mp hx
          · exact h
      · rw [if_neg hx]
        simp [List.mem_cons, ih a]

theorem mem_insertSorted (x : String) (l : List String) :
    ∀ a, a ∈ insertSorted x l ↔ a = x ∨ a ∈ l := by
  induction l with
  | nil => intro a; simp [insertSorted]
  | cons y ys ih =>
      intro a
      simp only [insertSorted]
      by_cases h : x ≤ y
      · rw [if_pos h]
        simp [List.mem_cons]
      · rw [if_neg h]
        simp only [List.mem_cons, ih a]
        tauto

theorem mem_sortTickers (l : List String) :
    ∀ a, a ∈ sortTickers l ↔ a ∈ l := by
  induction l with
  | nil => intro a; simp [sortTickers]
  | cons x xs ih =>
      intro a
      simp only [sortTickers, List.mem_cons]
      rw [mem_insertSorted x (sortTickers xs) a, ih a]

theorem optMapM_get {f : α → Option β} :
    ∀ {l : List α} {res : List β}, optMapM f l = some res →
      ∀ i a, l.get? i = some a → ∃ b, res.get? i = some b ∧ f a = some b := by
  intro l
  induction l with
  | nil => intro res h i a ha; simp at ha
  | cons x xs ih =>
      intro res h i a ha
      cases hfx : f x with
      | none => simp [optMapM, hfx] at h
      | some b0 =>
          cases hrec : optMapM f xs with
          | none => simp [optMapM, hfx, hrec] at h
          | some bs =>
              have hres : res = b0 :: bs := by
                simp [optMapM, hfx, hrec] at h
                exact h.symm
              subst hres
              cases i with
              | zero =>
                  simp only [List.get?_cons_zero, Option.some.injEq] at ha
                  subst ha
                  exact ⟨b0, by simp, hfx⟩
              | succ i =>
                  rw [List.get?_cons_succ] at ha
                  obtain ⟨b, hb1, hb2⟩ := ih hrec i a ha
                  exact ⟨b, by simpa using hb1, hb2⟩

theorem optMapM_none {f : α → Option β} {a : α} :
    ∀ {l : List α}, a ∈ l → f a = none → optMapM f l = none := by
  intro l
  induction l with
  | nil => intro h _; simp at h
  | cons x xs ih =>
      intro h hfa
      rcases List.mem_cons.mp h with rfl | h'
      · simp [optMapM, hfa]
      · cases hfx : f x with
        | none => simp [optMapM, hfx]
        | some b0 => simp [optMapM, hfx, ih h' hfa]

theorem optMapM_total {f : α → Option β} :
    ∀ {l : List α}, (∀ a ∈ l, ∃ b, f a = some b) →
      ∃ res, optMapM f l = some res := by
  intro l
  induction l with
  | nil => intro _; exact ⟨[], rfl⟩
  | cons x xs ih =>
      intro h
      obtain ⟨b, hb⟩ := h x (List.mem_cons_self x xs)
      obtain ⟨bs, hbs⟩ := ih (fun a ha => h a (List.mem_cons_of_mem x ha))
      exact ⟨b :: bs, by simp [optMapM, hb, hbs]⟩

theorem mem_of_optMapM {f : α → Option β} :
    ∀ {l : List α} {res : List β}, optMapM f l = some res →
      ∀ b ∈ res, ∃ a ∈ l, f a = some b := by
  intro l
  induction l with
  | nil =>
      intro res h b hb
      simp only [optMapM, Option.some.injEq] at h
      subst h
      simp at hb
  | cons x xs ih =>
      intro res h b hb
      cases hfx : f x with
      | none => simp [optMapM, hfx] at h
      | some b0 =>
          cases hrec : optMapM f xs with
          | none => simp [optMapM, hfx, hrec] at h
          | some bs =>
              have hres : res = b0 :: bs := by
                simp [optMapM, hfx, hrec] at h
                exact h.symm
              subst hres
              rcases List.mem_cons.mp hb with rfl | hb'
              · exact ⟨x, List.mem_cons_self x xs, hfx⟩
              · obtain ⟨a, ha1, ha2⟩ := ih hrec b hb'
                exact ⟨a, List.mem_cons_of_mem x ha1, ha2⟩

theorem exists_of_mem_optMapM {f : α → Option β} :
    ∀ {l : List α} {res : List β}, optMapM f l = some res →
      ∀ a ∈ l, ∃ b ∈ res, f a = some b := by
  intro l
  induction l with
  | nil => intro res _ a ha; simp at ha
  | cons x xs ih =>
      intro res h a ha
      cases hfx : f x with
      | none => simp [optMapM, hfx] at h
      | some b0 =>
          cases hrec : optMapM f xs with
          | none => simp [optMapM, hfx, hrec] at h
          | some bs =>
              have hres : res = b0 :: bs := by
                simp [optMapM, hfx, hrec] at h
                exact h.symm
              subst hres
              rcases List.mem_cons.mp ha with rfl | ha'
              · exact ⟨b0, List.mem_cons_self b0 bs, hfx⟩
              · obtain ⟨b, hb1, hb2⟩ := ih hrec a ha'
                exact ⟨b, List.mem_cons_of_mem b0 hb1, hb2⟩

theorem tickerTable_mem {t : String} :
    ∀ {ds : List ℚ} {vs : List (Option ℚ)} {r : TRow},
      r ∈ tickerTable t ds vs →
      ∃ i, r.1 = t ∧ ds.get? i = some r.2.1 ∧ vs.get? i = some r.2.2 := by
  intro ds
  induction ds with
  | nil => intro vs r h; simp [tickerTable] at h
  | cons d ds ih =>
      intro vs r h
      cases vs with
      | nil => simp [tickerTable] at h
      | cons v vs =>
          simp only [tickerTable] at h
          rcases List.mem_cons.mp h with rfl | h'
          · exact ⟨0, rfl, by simp, by simp⟩
          · obtain ⟨i, h1, h2, h3⟩ := ih h'
            exact ⟨i + 1, h1, by simpa using h2, by simpa using h3⟩

theorem tickerTable_mem_of {t : String} :
    ∀ {ds : List ℚ} {vs : List (Option ℚ)} {i : Nat} {d : ℚ} {v : Option ℚ},
      ds.get? i = some d → vs.get? i = some v →
      (t, d, v) ∈ tickerTable t ds vs := by
  intro ds
  induction ds with
  | nil => intro vs i d v h1 _; simp at h1
  | cons d0 ds ih =>
      intro vs i d v h1 h2
      cases vs with
      | nil => simp at h2
      | cons v0 vs =>
          cases i with
          | zero =>
              simp only [List.get?_cons_zero, Option.some.injEq] at h1 h2
              subst h1; subst h2
              simp [tickerTable]
          | succ i =>
              rw [List.get?_cons_succ] at h1 h2
              simp only [tickerTable]
              exact List.mem_cons_of_mem _ (ih h1 h2)

theorem dedupKeys_subset {r : TRow} :
    ∀ (l : List TRow) (seen : List (String × ℚ)),
      r ∈ dedupKeys seen l → r ∈ l := by
  intro l
  induction l with
  | nil => intro seen h; simp [dedupKeys] at h
  | cons x xs ih =>
      intro seen h
      simp only [dedupKeys] at h
      by_cases hx : rowKey x ∈ seen
      · rw [if_pos hx] at h
        exact List.mem_cons_of_mem _ (ih seen h)
      · rw [if_neg hx] at h
        rcases List.mem_cons.mp h with rfl | h'
        · exact List.mem_cons_self _ _
        · exact List.mem_cons_of_mem _ (ih _ h')

theorem dedupKeys_covers {r : TRow} :
    ∀ (l : List TRow) (seen : List (String × ℚ)),
      r ∈ l → rowKey r ∉ seen →
      ∃ r' ∈ dedupKeys seen l, rowKey r' = rowKey r := by
  intro l
  induction l with
  | nil => intro seen h _; simp at h
  | cons x xs ih =>
      intro seen h hn
      simp only [dedupKeys]
      by_cases hx : rowKey x ∈ seen
      · rw [if_pos hx]
        rcases List.mem_cons.mp h with rfl | h'
        · exact absurd hx hn
        · exact ih seen h' hn
      · rw [if_neg hx]
        by_cases hk : rowKey r = rowKey x
        · exact ⟨x, List.mem_cons_self _ _, hk.symm⟩
        · rcases List.mem_cons.mp h with rfl | h'
          · exact absurd rfl hk
          · obtain ⟨r', hr1, hr2⟩ := ih (rowKey x :: seen) h'
              (by simp only [List.mem_cons, not_or]; exact ⟨hk, hn⟩)
            exact ⟨r', List.mem_cons_of_mem _ hr1, hr2⟩

theorem findRow_some {k : String × ℚ} :
    ∀ {l : List TRow} {r : TRow},
      findRow k l = some r → r ∈ l ∧ rowKey r = k := by
  intro l
  induction l with
  | nil => intro r h; simp [findRow] at h
  | cons x xs ih =>
      intro r h
      simp only [findRow] at h
      by_cases hx : rowKey x = k
      · rw [if_pos hx] at h
        obtain rfl := Option.some.inj h
        exact ⟨List.mem_cons_self _ _, hx⟩
      · rw [if_neg hx] at h
        obtain ⟨h1, h2⟩ := ih h
        exact ⟨List.mem_cons_of_mem _ h1, h2⟩

theorem findRow_isSome {k : String × ℚ} :
    ∀ {l : List TRow}, (∃ r ∈ l, rowKey r = k) →
      ∃ r, findRow k l = some r := by
  intro l
  induction l with
  | nil => rintro ⟨r, hr, -⟩; simp at hr
  | cons x xs ih =>
      rintro ⟨r, hr, hk⟩
      simp only [findRow]
      by_cases hx : rowKey x = k
      · exact ⟨x, if_pos hx⟩
      · rw [if_neg hx]
        apply ih
        rcases List.mem_cons.mp hr with rfl | h'
        · exact absurd hk hx
        · exact ⟨r, h', hk⟩

theorem firstMatchIdx_eq_none {d : ℚ} :
    ∀ {l : List ℚ}, d ∉ l → firstMatchIdx d l = none := by
  intro l
  induction l with
  | nil => intro _; rfl
  | cons x xs ih =>
      intro h
      have hx : ¬ x = d := by
        intro hx
        exact h (by simp [hx])
      have hxs : d ∉ xs := fun h' => h (List.mem_cons_of_mem _ h')
      simp [firstMatchIdx, hx, ih hxs]

theorem firstMatchIdx_get {d : ℚ} :
    ∀ {l : List ℚ} {i : Nat},
      firstMatchIdx d l = some i → l.get? i = some d := by
  intro l
  induction l with
  | nil => intro i h; simp [firstMatchIdx] at h
  | cons x xs ih =>
      intro i h
      simp only [firstMatchIdx] at h
      by_cases hx : x = d
      · rw [if_pos hx] at h
        obtain rfl := Option.some.inj h
        simp [hx]
      · rw [if_neg hx] at h
        cases hrec : firstMatchIdx d xs with
        | none => rw [hrec] at h; simp at h
        | some j =>
            rw [hrec] at h
            simp only [Option.map_some', Option.some.injEq] at h
            subst h
            simpa using ih hrec

theorem firstMatchIdx_of_nodup {d : ℚ} :
    ∀ {l : List ℚ} {i : Nat},
      l.Nodup → l.get? i = some d → firstMatchIdx d l = some i := by
  intro l
  induction l with
  | nil => intro i _ h; simp at h
  | cons x xs ih =>
      intro i hnd h
      cases i with
      | zero =>
          simp only [List.get?_cons_zero, Option.some.injEq] at h
          simp [firstMatchIdx, h]
      | succ i =>
          rw [List.get?_cons_succ] at h
          have hd : d ∈ xs := List.get?_mem h
          have hx : ¬ x = d := by
            intro hx
            subst hx
            exact (List.nodup_cons.mp hnd).1 hd
          have hxs := (List.nodup_cons.mp hnd).2
          simp [firstMatchIdx, hx, ih hxs h]

theorem mem_group_of_mem_info {info : List (String × ℚ)} {t : String} {d : ℚ}
    (h : (t, d) ∈ info) :
    (t, datesOf info t) ∈ groupByTicker info ∧ d ∈ datesOf info t := by
  constructor
  · apply List.mem_map.mpr
    refine ⟨t, ?_, rfl⟩
    rw [mem_sortTickers _ t, mem_dedupTickers _ t]
    exact List.mem_map.mpr ⟨(t, d), h, rfl⟩
  · apply List.mem_map.mpr
    refine ⟨(t, d), ?_, rfl⟩
    rw [List.mem_filter]
    exact ⟨h, by simp⟩

theorem parts_val {g : String → ℚ → Option (Option ℚ)}
    {info : List (String × ℚ)} {parts : List (List TRow)}
    (h : optMapM
        (fun gr => Option.map (tickerTable gr.1 gr.2) (optMapM (g gr.1) gr.2))
        (groupByTicker info) = some parts) :
    ∀ r ∈ parts.flatten, g r.1 r.2.1 = some r.2.2 := by
  intro r hr
  obtain ⟨tbl, htbl, hrtbl⟩ := List.mem_flatten.mp hr
  obtain ⟨gr, hgr, hFgr⟩ := mem_of_optMapM h tbl htbl
  rcases hvs : optMapM (g gr.1) gr.2 with _ | vs
  · rw [hvs] at hFgr; simp at hFgr
  · rw [hvs] at hFgr
    simp only [Option.map_some', Option.some.injEq] at hFgr
    subst hFgr
    obtain ⟨i, hrt, hd, hv⟩ := tickerTable_mem hrtbl
    obtain ⟨b, hb1, hb2⟩ := optMapM_get hvs i _ hd
    rw [hv] at hb1
    obtain rfl := Option.some.inj hb1
    rw [hrt]
    exact hb2

theorem pipeline_spec {g : String → ℚ → Option (Option ℚ)}
    {info : List (String × ℚ)} {out : List TRow}
    (h : calcPipeline g info = some out) :
    out = info.map (fun p => (p.1, p.2, (g p.1 p.2).getD none)) := by
  unfold calcPipeline at h
  split at h
  · exact absurd h (by simp)
  · next parts hm =>
      obtain rfl := Option.some.inj h
      unfold leftMerge
      apply List.map_congr_left
      intro p hp
      dsimp only
      have hp' : (p.1, p.2) ∈ info := by simpa using hp
      obtain ⟨hgrp, hdate⟩ := mem_group_of_mem_info hp'
      obtain ⟨tbl, htbl, hFgr⟩ := exists_of_mem_optMapM hm _ hgrp
      rcases hvs : optMapM (g p.1) (datesOf info p.1) with _ | vs
      · rw [hvs] at hFgr; simp at hFgr
      · rw [hvs] at hFgr
        simp only [Option.map_some', Option.some.injEq] at hFgr
        subst hFgr
        obtain ⟨i, hi⟩ := List.get?_of_mem hdate
        obtain ⟨b, hb1, hb2⟩ := optMapM_get hvs i _ hi
        have hmemtbl : (p.1, p.2, b) ∈ tickerTable p.1 (datesOf info p.1) vs :=
          tickerTable_mem_of hi hb1
        have hmemflat : (p.1, p.2, b) ∈ parts.flatten :=
          List.mem_flatten.mpr ⟨_, htbl, hmemtbl⟩
        obtain ⟨r', hr'1, hr'2⟩ :=
          dedupKeys_covers _ [] hmemflat (by simp)
        obtain ⟨r0, hr0⟩ := findRow_isSome (k := p)
          ⟨r', hr'1, by simpa [rowKey] using hr'2⟩
        obtain ⟨hr0mem, hr0key⟩ := findRow_some hr0
        have hr0flat : r0 ∈ parts.flatten := dedupKeys_subset _ [] hr0mem
        have hval := parts_val hm r0 hr0flat
        have h1 : r0.1 = p.1 := congrArg Prod.fst hr0key
        have h2 : r0.2.1 = p.2 := congrArg Prod.snd hr0key
        rw [h1, h2] at hval
        rw [hr0]
        simp [hval]

theorem pipeline_fail {g : String → ℚ → Option (Option ℚ)}
    {info : List (String × ℚ)} {t : String} {d : ℚ}
    (hmem : (t, d) ∈ info) (hg : g t d = none) :
    calcPipeline g info = none := by
  obtain ⟨hgrp, hdate⟩ := mem_group_of_mem_info hmem
  have hinner : optMapM (g t) (datesOf info t) = none := optMapM_none hdate hg
  have houter : optMapM
      (fun gr => Option.map (tickerTable gr.1 gr.2) (optMapM (g gr.1) gr.2))
      (groupByTicker info) = none := by
    apply optMapM_none hgrp
    simp [hinner]
  unfold calcPipeline
  rw [houter]

theorem daily_spec (col : String) (horizon : Int) (foo : List ℚ → Option ℚ)
    (loader : String → Option (List Row)) (info : List (String × ℚ)) :
    dailyCalculate col horizon foo loader info =
      some (info.map
        (fun p => (p.1, p.2, dailySingleValue col horizon foo (loader p.1) p.2))) := by
  have htot : ∀ gr ∈ groupByTicker info, ∃ tbl,
      Option.map (tickerTable gr.1 gr.2)
        (optMapM ((fun t d => some (dailySingleValue col horizon foo (loader t) d)) gr.1)
          gr.2) = some tbl := by
    intro gr _
    obtain ⟨vs, hvs⟩ := optMapM_total
      (f := fun d => some (dailySingleValue col horizon foo (loader gr.1) d))
      (fun a _ => ⟨_, rfl⟩)
    exact ⟨_, by rw [hvs]; rfl⟩
  obtain ⟨parts, hparts⟩ := optMapM_total htot
  have hout : dailyCalculate col horizon foo loader info =
      some (leftMerge info (dedupKeys [] parts.flatten)) := by
    unfold dailyCalculate calcPipeline
    rw [hparts]
  have hout' : calcPipeline
      (fun t d => some (dailySingleValue col horizon foo (loader t) d)) info =
      some (leftMerge info (dedupKeys [] parts.flatten)) := hout
  rw [hout, pipeline_spec hout']
  simp

theorem pipeline_singleton {g : String → ℚ → Option (Option ℚ)}
    {t : String} {d : ℚ} {v : Option ℚ} (hg : g t d = some v) :
    calcPipeline g [(t, d)] = some [(t, d, v)] := by
  have hgrp : groupByTicker [(t, d)] = [(t, [d])] := by
    simp [groupByTicker, dedupTickers, sortTickers, insertSorted, datesOf]
  unfold calcPipeline
  rw [hgrp]
  simp [optMapM, hg, tickerTable, dedupKeys, leftMerge, findRow, rowKey]

theorem quarterlyValueAt_of_idx {col : String} {shift : Int} {qd : List Row}
    {d : ℚ} {j : Nat} (h : firstMatchIdx d (qd.map Row.date) = some j) :
    quarterlyValueAt col shift qd d =
      some (if 0 ≤ (j : Int) + shift ∧ (j : Int) + shift < (qd.length : Int)
        then (qd.get? ((j : Int) + shift).toNat).map (fun r => r.cols col)
        else none) := by
  unfold quarterlyValueAt
  rw [h]
  dsimp only
  split_ifs <;> rfl

theorem quarterlyValueAt_no_match {col : String} {shift : Int} {qd : List Row}
    {d : ℚ} (h : d ∉ qd.map Row.date) :
    quarterlyValueAt col shift qd d = none := by
  unfold quarterlyValueAt
  rw [firstMatchIdx_eq_none h]

theorem get?_reverse' {l : List α} {n : Nat} (h : n < l.length) :
    l.reverse.get? n = l.get? (l.length - 1 - n) := by
  rw [List.get?_eq_getElem?, List.get?_eq_getElem?]
  exact List.getElem?_reverse h

theorem nodup_rev_dates {qd : List Row}
    (h : List.Pairwise (fun a b => a.date < b.date) qd) :
    ((qd.reverse).map Row.date).Nodup := by
  have h1 : (qd.map Row.date).Pairwise (· < ·) :=
    List.Pairwise.map _ (fun a b hab => hab) h
  have h2 : (qd.map Row.date).Nodup := h1.imp (fun hab => ne_of_lt hab)
  rw [List.map_reverse]
  exact List.nodup_reverse.mpr h2

theorem zipWith_map_same {f : β → β → γ} {g1 g2 : α → β} {l : List α} :
    List.zipWith f (l.map g1) (l.map g2) = l.map (fun a => f (g1 a) (g2 a)) := by
  rw [List.zipWith_map f g1 g2 l l, List.zipWith_same]

theorem diff_spec {col : String} {loader : String → List Row}
    {info : List (String × ℚ)} {out : List TRow}
    (h : quarterlyDiffCalculate col false loader info = some out) :
    out = info.map (fun p => (p.1, p.2,
      subOpt (quarterlyValueOf col 0 loader p.1 p.2)
        (quarterlyValueOf col (-1) loader p.1 p.2))) := by
  unfold quarterlyDiffCalculate at h
  rcases hc : quarterlyCalculate col 0 loader info with _ | curr
  · rw [hc] at h; exact absurd h (by simp)
  · rcases hl : quarterlyCalculate col (-1) loader info with _ | last
    · rw [hc, hl] at h; exact absurd h (by simp)
    · rw [hc, hl] at h
      simp only [Option.some.injEq] at h
      subst h
      have hc' : calcPipeline
          (fun t d => quarterlyValueAt col 0 ((loader t).reverse) d) info =
          some curr := hc
      have hl' : calcPipeline
          (fun t d => quarterlyValueAt col (-1) ((loader t).reverse) d) info =
          some last := hl
      rw [pipeline_spec hc', pipeline_spec hl', zipWith_map_same]
      apply List.map_congr_left
      intro p _
      simp [quarterlyValueOf]

theorem binDiff_spec {col : String} {loader : String → List Row}
    {info : List (String × ℚ)} {out : List TRow}
    (h : quarterlyBinDiffCalculate col loader info = some out) :
    out = info.map (fun p => (p.1, p.2,
      binEncode (subOpt (quarterlyValueOf col 0 loader p.1 p.2)
        (quarterlyValueOf col (-1) loader p.1 p.2)))) := by
  unfold quarterlyBinDiffCalculate at h
  rcases hd : quarterlyDiffCalculate col false loader info with _ | dout
  · rw [hd] at h; exact absurd h (by simp)
  · rw [hd] at h
    simp only [Option.map_some', Option.some.injEq] at h
    subst h
    rw [diff_spec hd, List.map_map]
    rfl

theorem quarterly_rev_value {col : String} {qd : List Row} {i : Nat} {r : Row}
    {shift : Int}
    (hasc : List.Pairwise (fun a b => a.date < b.date) qd)
    (hr : qd.get? i = some r) :
    quarterlyValueAt col shift qd.reverse r.date =
      some (if 0 ≤ (i : Int) - shift ∧ (i : Int) - shift < (qd.length : Int)
        then (qd.get? ((i : Int) - shift).toNat).map (fun x => x.cols col)
        else none) := by
  have hilen : i < qd.length := by
    rcases List.get?_eq_some.mp hr with ⟨hlt, -⟩
    exact hlt
  have hlenrev : qd.reverse.length = qd.length := List.length_reverse qd
  have hnd := nodup_rev_dates hasc
  have hj : qd.length - 1 - i < qd.length := by omega
  have hrev : qd.reverse.get? (qd.length - 1 - i) = some r := by
    rw [get?_reverse' hj]
    have he : qd.length - 1 - (qd.length - 1 - i) = i := by omega
    rw [he]
    exact hr
  have hdate : (qd.reverse.map Row.date).get? (qd.length - 1 - i) =
      some r.date := by
    rw [List.get?_map, hrev]
    rfl
  have hidx : firstMatchIdx r.date (qd.reverse.map Row.date) =
      some (qd.length - 1 - i) := firstMatchIdx_of_nodup hnd hdate
  rw [quarterlyValueAt_of_idx hidx]
  by_cases hin : 0 ≤ (i : Int) - shift ∧ (i : Int) - shift < (qd.length : Int)
  · rw [if_pos hin, if_pos (by omega)]
    have harg : ((qd.length - 1 - i : Nat) : Int) + shift =
        ((qd.length : Int) - 1) - ((i : Int) - shift) := by omega
    have hlt : (((qd.length - 1 - i : Nat) : Int) + shift).toNat < qd.length := by
      omega
    rw [get?_reverse' hlt]
    have he2 : qd.length - 1 - (((qd.length - 1 - i : Nat) : Int) + shift).toNat =
        ((i : Int) - shift).toNat := by omega
    rw [he2]
  · rw [if_neg hin, if_neg (by omega)]

/-- C2 (amended): for `horizon ≥ 0`, `DailyAggTarget` keeps the **last**
`horizon` of the records with date ≥ the requested date — the
chronologically latest ones, aggregated newest-first — because the engine
reverses the provider's ascending series before slicing `[:horizon]`.
On the worked example the value is mean(40,30,20) = 30, not 20. -/
theorem C2_thm {col : String} {horizon : Int} {foo : List ℚ → Option ℚ}
    {dd : List Row} {d : ℚ} (h : 0 ≤ horizon) :
    dailySingleValue col horizon foo (some dd) d =
      foo ((((dd.filter (fun r => decide (d ≤ r.date))).map
        (fun r => r.cols col)).drop
          (((dd.filter (fun r => decide (d ≤ r.date))).map
            (fun r => r.cols col)).length - horizon.toNat)).reverse) := by
  unfold dailySingleValue dailyValueAt
  dsimp only
  rw [if_pos h]
  congr 1
  rw [List.filter_reverse, List.map_reverse, List.take_reverse]

/-- C3 (amended): for `horizon < 0`, `DailyAggTarget` keeps the **first**
`|horizon|` of the records strictly before the requested date — the
oldest ones, aggregated newest-first — because the python slice
`[horizon:]` acts on the reversed (descending) series.  The spec's worked
example still evaluates to 20 only because exactly three records precede
the request date there. -/
theorem C3_thm {col : String} {horizon : Int} {foo : List ℚ → Option ℚ}
    {dd : List Row} {d : ℚ} (h : horizon < 0) :
    dailySingleValue col horizon foo (some dd) d =
      foo ((((dd.filter (fun r => decide (r.date < d))).map
        (fun r => r.cols col)).take (-horizon).toNat).reverse) := by
  unfold dailySingleValue dailyValueAt
  dsimp only
  rw [if_neg (by omega)]
  congr 1
  rw [List.filter_reverse, List.map_reverse, List.length_reverse]
  exact (List.reverse_take).symm

/-- C1 counterexample: with the provider's quarterly series in ascending
date order (quarters at dates 1, 2, 3 with values 10, 20, 30) and the
request date 2, `quarter_shift = -1` returns 30 — the chronologically
NEXT quarter's value — not the previous quarter's value 10 that the
claim states. -/
theorem C1_cex :
    quarterlyCalculate "v" (-1) exQL [("A", 2)] = some [("A", 2, some 30)] ∧
    (30 : ℚ) ≠ 10 :=
  ⟨by decide, by norm_num⟩

/-- C1 (amended): for an ascending quarterly series, after the engine's
internal reversal to descending order, `quarter_shift = 0` returns the
matched quarter's value, `quarter_shift = -1` the chronologically NEXT
quarter's value (null at the newest quarter), and `quarter_shift = +1`
the chronologically PREVIOUS quarter's value (null at the oldest). -/
theorem C1_thm {col : String} {loader : String → List Row} {t : String}
    {i : Nat} {r : Row}
    (hasc : List.Pairwise (fun a b => a.date < b.date) (loader t))
    (hr : (loader t).get? i = some r) :
    quarterlyCalculate col 0 loader [(t, r.date)] =
      some [(t, r.date, some (r.cols col))] ∧
    quarterlyCalculate col (-1) loader [(t, r.date)] =
      some [(t, r.date, ((loader t).get? (i + 1)).map (fun x => x.cols col))] ∧
    (0 < i → quarterlyCalculate col 1 loader [(t, r.date)] =
      some [(t, r.date, ((loader t).get? (i - 1)).map (fun x => x.cols col))]) ∧
    (i = 0 → quarterlyCalculate col 1 loader [(t, r.date)] =
      some [(t, r.date, none)]) := by
  have hilen : i < (loader t).length := by
    rcases List.get?_eq_some.mp hr with ⟨hlt, -⟩
    exact hlt
  refine ⟨?_, ?_, ?_, ?_⟩
  · have hval : quarterlyValueAt col 0 ((loader t).reverse) r.date =
        some (some (r.cols col)) := by
      rw [quarterly_rev_value hasc hr, if_pos (by omega)]
      have he : ((i : Int) - 0).toNat = i := by omega
      rw [he, hr]
      rfl
    exact pipeline_singleton
      (g := fun s d => quarterlyValueAt col 0 ((loader s).reverse) d) hval
  · have hval : quarterlyValueAt col (-1) ((loader t).reverse) r.date =
        some (((loader t).get? (i + 1)).map (fun x => x.cols col)) := by
      rw [quarterly_rev_value hasc hr]
      by_cases hin : i + 1 < (loader t).length
      · rw [if_pos (by omega)]
        have he : ((i : Int) - (-1)).toNat = i + 1 := by omega
        rw [he]
      · rw [if_neg (by omega)]
        rw [List.get?_eq_none.mpr (by omega : (loader t).length ≤ i + 1)]
        rfl
    exact pipeline_singleton
      (g := fun s d => quarterlyValueAt col (-1) ((loader s).reverse) d) hval
  · intro hpos
    have hval : quarterlyValueAt col 1 ((loader t).reverse) r.date =
        some (((loader t).get? (i - 1)).map (fun x => x.cols col)) := by
      rw [quarterly_rev_value hasc hr, if_pos (by omega)]
      have he : ((i : Int) - 1).toNat = i - 1 := by omega
      rw [he]
    exact pipeline_singleton
      (g := fun s d => quarterlyValueAt col 1 ((loader s).reverse) d) hval
  · intro hzero
    subst hzero
    have hval : quarterlyValueAt col 1 ((loader t).reverse) r.date =
        some none := by
      rw [quarterly_rev_value hasc hr, if_neg (by omega)]
    exact pipeline_singleton
      (g := fun s d => quarterlyValueAt col 1 ((loader s).reverse) d) hval

/-- C1 witness: on the concrete ascending three-quarter series, the
amended statement instantiated at the middle quarter (index 1):
`quarter_shift = -1` yields the value of the quarter at index 2. -/
theorem C1_wit :
    List.Pairwise (fun a b : Row => a.date < b.date) (exQL "A") ∧
    (exQL "A").get? 1 = some (mkRow 2 20) ∧
    quarterlyCalculate "v" (-1) exQL [("A", (mkRow 2 20).date)] =
      some [("A", (mkRow 2 20).date,
        ((exQL "A").get? 2).map (fun x => x.cols "v"))] := by
  have h1 : List.Pairwise (fun a b : Row => a.date < b.date) (exQL "A") := by
    decide
  have h2 : (exQL "A").get? 1 = some (mkRow 2 20) := rfl
  exact ⟨h1, h2, (C1_thm h1 h2).2.1⟩

/-- C2 counterexample: ascending daily values 10, 20, 30, 40 on dates
0..3 requested at date 0 with horizon +3 and mean aggregation: the code
returns mean(40,30,20) = 30, not the claimed mean(10,20,30) = 20. -/
theorem C2_cex :
    dailyCalculate "v" 3 listMean exDL [("A", 0)] = some [("A", 0, some 30)] ∧
    (30 : ℚ) ≠ 20 := by
  constructor
  · have h1 : dailyCalculate "v" 3 listMean exDL [("A", 0)] =
        some [("A", 0, listMean [40, 30, 20])] := rfl
    have h2 : listMean [40, 30, 20] = some 30 := by norm_num [listMean]
    rw [h1, h2]
  · norm_num

/-- C2 witness: the amended statement evaluated at the worked example
(horizon +3, mean, request at date 0) gives 30. -/
theorem C2_wit :
    (0 : Int) ≤ 3 ∧
    dailySingleValue "v" 3 listMean
      (some [mkRow 0 10, mkRow 1 20, mkRow 2 30, mkRow 3 40]) 0 = some 30 := by
  refine ⟨by norm_num, ?_⟩
  have h := @C2_thm "v" 3 listMean
    [mkRow 0 10, mkRow 1 20, mkRow 2 30, mkRow 3 40] 0
    (by norm_num)
  refine h.trans ?_
  show listMean [(40 : ℚ), 30, 20] = some 30
  norm_num [listMean]

/-- C3 counterexample: ascending daily values 10..50 on dates 0..4
requested at date 4 with horizon −3: the code keeps the OLDEST three
strictly-before records and returns mean(10,20,30) = 20, not the claimed
mean of the most recent three, mean(20,30,40) = 30. -/
theorem C3_cex :
    dailyCalculate "v" (-3) listMean exDL5 [("B", 4)] =
      some [("B", 4, some 20)] ∧
    (20 : ℚ) ≠ 30 := by
  constructor
  · have h1 : dailyCalculate "v" (-3) listMean exDL5 [("B", 4)] =
        some [("B", 4, listMean [30, 20, 10])] := rfl
    have h2 : listMean [30, 20, 10] = some 20 := by norm_num [listMean]
    rw [h1, h2]
  · norm_num

/-- C3 witness: the amended statement evaluated at the spec's example
(horizon −3 requested at date 3, where only three records precede the
request date) still gives 20. -/
theorem C3_wit :
    (-3 : Int) < 0 ∧
    dailySingleValue "v" (-3) listMean
      (some [mkRow 0 10, mkRow 1 20, mkRow 2 30, mkRow 3 40]) 3 = some 20 := by
  refine ⟨by norm_num, ?_⟩
  have h := @C3_thm "v" (-3) listMean
    [mkRow 0 10, mkRow 1 20, mkRow 2 30, mkRow 3 40] 3
    (by norm_num)
  refine h.trans ?_
  show listMean [(30 : ℚ), 20, 10] = some 20
  norm_num [listMean]

/-- C4: a request row whose date is absent from that entity's quarterly
report dates makes the whole `QuarterlyTarget.calculate` call fail (the
exact-match assert raises): no table is returned at all, not a partial
one. -/
theorem C4_thm {col : String} {shift : Int} {loader : String → List Row}
    {info : List (String × ℚ)} {t : String} {d : ℚ}
    (hmem : (t, d) ∈ info) (habs : d ∉ (loader t).map Row.date) :
    quarterlyCalculate col shift loader info = none := by
  have hg : quarterlyValueAt col shift ((loader t).reverse) d = none := by
    apply quarterlyValueAt_no_match
    intro hc
    apply habs
    rw [List.map_reverse] at hc
    exact List.mem_reverse.mp hc
  exact pipeline_fail
    (g := fun s e => quarterlyValueAt col shift ((loader s).reverse) e) hmem hg

/-- C4 witness: date 9 is no quarter date of the example series, so the
whole calculate call fails. -/
theorem C4_wit :
    ("A", (9 : ℚ)) ∈ [("A", (9 : ℚ))] ∧
    (9 : ℚ) ∉ (exQL "A").map Row.date ∧
    quarterlyCalculate "v" 0 exQL [("A", 9)] = none := by
  have h1 : ("A", (9 : ℚ)) ∈ [("A", (9 : ℚ))] := List.mem_cons_self _ _
  have h2 : (9 : ℚ) ∉ (exQL "A").map Row.date := by decide
  exact ⟨h1, h2, C4_thm h1 h2⟩

/-- C5: when `calculate` succeeds, the output table has exactly one row
per request row, in the request table's positional order, each carrying
that (entity, date) pair's resolved value (null where unresolvable) —
for both `QuarterlyTarget` and `DailyAggTarget`, independently of
grouping and worker completion order (the merge re-joins onto the
original request table). -/
theorem C5_thm {colQ : String} {shiftQ : Int} {loaderQ : String → List Row}
    {colD : String} {horizon : Int} {foo : List ℚ → Option ℚ}
    {loaderD : String → Option (List Row)} {info : List (String × ℚ)}
    {outQ outD : List TRow}
    (hq : quarterlyCalculate colQ shiftQ loaderQ info = some outQ)
    (hd : dailyCalculate colD horizon foo loaderD info = some outD) :
    outQ = info.map (fun p =>
      (p.1, p.2, quarterlyValueOf colQ shiftQ loaderQ p.1 p.2)) ∧
    outD = info.map (fun p =>
      (p.1, p.2, dailySingleValue colD horizon foo (loaderD p.1) p.2)) := by
  constructor
  · have hq' : calcPipeline
        (fun t d => quarterlyValueAt colQ shiftQ ((loaderQ t).reverse) d) info =
        some outQ := hq
    rw [pipeline_spec hq']
    rfl
  · have hd2 := daily_spec colD horizon foo loaderD info
    rw [hd] at hd2
    exact Option.some.inj hd2

/-- C5 witness: a one-row request table for each calculator, with the
output row equal to the request row extended by its resolved value. -/
theorem C5_wit :
    quarterlyCalculate "v" 0 exQL [("A", 2)] = some [("A", 2, some 20)] ∧
    dailyCalculate "v" 1 listMean exDL [("A", 2)] = some [("A", 2, some 40)] ∧
    ([("A", (2 : ℚ), some (20 : ℚ))] : List TRow) =
      [("A", (2 : ℚ))].map (fun p =>
        (p.1, p.2, quarterlyValueOf "v" 0 exQL p.1 p.2)) ∧
    ([("A", (2 : ℚ), some (40 : ℚ))] : List TRow) =
      [("A", (2 : ℚ))].map (fun p =>
        (p.1, p.2, dailySingleValue "v" 1 listMean (exDL p.1) p.2)) := by
  have h1 : quarterlyCalculate "v" 0 exQL [("A", 2)] =
      some [("A", 2, some 20)] := by decide
  have h2 : dailyCalculate "v" 1 listMean exDL [("A", 2)] =
      some [("A", 2, some 40)] := by
    have h2a : dailyCalculate "v" 1 listMean exDL [("A", 2)] =
        some [("A", 2, listMean [40])] := rfl
    have h2b : listMean [40] = some 40 := by norm_num [listMean]
    rw [h2a, h2b]
  exact ⟨h1, h2, (C5_thm h1 h2).1, (C5_thm h1 h2).2⟩

theorem quarterlyValueAt_match_none {col : String} {shift : Int}
    {qd : List Row} {d : ℚ}
    (hm : firstMatchIdx d (qd.map Row.date) = none) :
    quarterlyValueAt col shift qd d = none := by
  unfold quarterlyValueAt
  rw [hm]

/-- C6 counterexample: on a two-quarter series, requesting the quarter
whose offset −1 neighbour falls off history: the single offset −1 call
returns null, while the composed two-pass computation fails (the second
pass's exact-match assert receives the null date) — the two are not
equal. -/
theorem C6_cex :
    composedQuarterlyValueAt "v" exQD2 5 = none ∧
    quarterlyValueAt "v" (-1) exQD2 5 = some none ∧
    composedQuarterlyValueAt "v" exQD2 5 ≠ quarterlyValueAt "v" (-1) exQD2 5 :=
  ⟨by decide, by decide, by decide⟩

/-- C6 (amended): for a quarterly series with distinct report dates,
whenever the single offset −1 lookup resolves to an actual (non-null)
value, the two-pass composition (resolve the offset −1 quarter's `date`,
then read at offset 0) returns the same value; when the offset −1 lookup
yields null the composition fails instead of returning null, and when
the request date has no exact match both fail. -/
theorem C6_thm {col : String} {qd : List Row} {d : ℚ}
    (hnd : (qd.map Row.date).Nodup) :
    (∀ v : ℚ, quarterlyValueAt col (-1) qd d = some (some v) →
      composedQuarterlyValueAt col qd d = some (some v)) ∧
    (quarterlyValueAt col (-1) qd d = some none →
      composedQuarterlyValueAt col qd d = none) ∧
    (quarterlyValueAt col (-1) qd d = none →
      composedQuarterlyValueAt col qd d = none) := by
  refine ⟨?_, ?_, ?_⟩
  · intro v h
    rcases hm : firstMatchIdx d (qd.map Row.date) with _ | j
    · rw [quarterlyValueAt_match_none hm] at h
      exact absurd h (by simp)
    · rw [quarterlyValueAt_of_idx hm] at h
      by_cases hin : 0 ≤ (j : Int) + (-1) ∧ (j : Int) + (-1) < (qd.length : Int)
      · rw [if_pos hin] at h
        rcases hk : qd.get? ((j : Int) + (-1)).toNat with _ | r
        · rw [hk] at h; simp at h
        · rw [hk] at h
          simp only [Option.map_some', Option.some.injEq] at h
          unfold composedQuarterlyValueAt
          have hdate : quarterlyValueAt "date" (-1) qd d = some (some r.date) := by
            rw [quarterlyValueAt_of_idx hm, if_pos hin, hk]
            rfl
          rw [hdate]
          dsimp only
          have hkd : (qd.map Row.date).get? ((j : Int) + (-1)).toNat =
              some r.date := by
            rw [List.get?_map, hk]
            rfl
          have hm2 : firstMatchIdx r.date (qd.map Row.date) =
              some ((j : Int) + (-1)).toNat := firstMatchIdx_of_nodup hnd hkd
          rw [quarterlyValueAt_of_idx hm2]
          have hklen : ((j : Int) + (-1)).toNat < qd.length := by
            rcases List.get?_eq_some.mp hk with ⟨hlt, -⟩
            exact hlt
          rw [if_pos (by omega)]
          have he : ((((j : Int) + (-1)).toNat : Int) + 0).toNat =
              ((j : Int) + (-1)).toNat := by omega
          rw [he, hk]
          simp [h]
      · rw [if_neg hin] at h
        simp at h
  · intro h
    rcases hm : firstMatchIdx d (qd.map Row.date) with _ | j
    · unfold composedQuarterlyValueAt
      rw [@quarterlyValueAt_match_none "date" (-1) qd d hm]
    · rw [quarterlyValueAt_of_idx hm] at h
      by_cases hin : 0 ≤ (j : Int) + (-1) ∧ (j : Int) + (-1) < (qd.length : Int)
      · rw [if_pos hin] at h
        rcases hk : qd.get? ((j : Int) + (-1)).toNat with _ | r
        · exact absurd (List.get?_eq_none.mp hk) (by omega)
        · rw [hk] at h
          simp at h
      · unfold composedQuarterlyValueAt
        have hdate : quarterlyValueAt "date" (-1) qd d = some none := by
          rw [quarterlyValueAt_of_idx hm, if_neg hin]
        rw [hdate]
  · intro h
    rcases hm : firstMatchIdx d (qd.map Row.date) with _ | j
    · unfold composedQuarterlyValueAt
      rw [@quarterlyValueAt_match_none "date" (-1) qd d hm]
    · rw [quarterlyValueAt_of_idx hm] at h
      simp at h

/-- C6 witness: on a three-quarter series requesting the middle quarter,
the single offset −1 lookup yields 30 and so does the composition. -/
theorem C6_wit :
    (exQD.map Row.date).Nodup ∧
    quarterlyValueAt "v" (-1) exQD 2 = some (some 30) ∧
    composedQuarterlyValueAt "v" exQD 2 = some (some 30) := by
  have h1 : (exQD.map Row.date).Nodup := by decide
  have h2 : quarterlyValueAt "v" (-1) exQD 2 = some (some 30) := by decide
  exact ⟨h1, h2, (C6_thm h1).1 30 h2⟩

/-- C7: an entity whose daily history the provider signals as absent gets
null `y` for every requested date, the calculate call succeeds (no
error), and every other entity's rows carry the value computed from that
entity's own daily data, unaffected by the absence. -/
theorem C7_thm {col : String} {horizon : Int} {foo : List ℚ → Option ℚ}
    {loader : String → Option (List Row)} {info : List (String × ℚ)}
    {t : String} (habs : loader t = none) :
    dailyCalculate col horizon foo loader info =
      some (info.map (fun p => (p.1, p.2,
        if p.1 = t then none
        else dailySingleValue col horizon foo (loader p.1) p.2))) := by
  rw [daily_spec]
  congr 1
  apply List.map_congr_left
  intro p _
  by_cases hp : p.1 = t
  · rw [if_pos hp, hp, habs]
    rfl
  · rw [if_neg hp]

/-- C7 witness: ticker `"A"` has no daily history; its request row gets
null while ticker `"B"`'s row is computed from `"B"`'s own data. -/
theorem C7_wit :
    exDL7 "A" = none ∧
    dailyCalculate "v" 1 listMean exDL7 [("A", 5), ("B", 1)] =
      some ([("A", (5 : ℚ)), ("B", (1 : ℚ))].map (fun p => (p.1, p.2,
        if p.1 = "A" then none
        else dailySingleValue "v" 1 listMean (exDL7 p.1) p.2))) :=
  ⟨rfl, C7_thm rfl⟩

/-- C8: for a matched request date, the target index is the exact-match
index plus the offset; any offset that walks the index out of
[0, length) — however large — yields null without an error, and any
in-range index yields that record's column value. -/
theorem C8_thm {col : String} {shift : Int} {qd : List Row} {d : ℚ} {i : Nat}
    (h : firstMatchIdx d (qd.map Row.date) = some i) :
    (((i : Int) + shift < 0 ∨ (qd.length : Int) ≤ (i : Int) + shift) →
      quarterlyValueAt col shift qd d = some none) ∧
    (∀ j : Nat, (i : Int) + shift = (j : Int) → ∀ r, qd.get? j = some r →
      quarterlyValueAt col shift qd d = some (some (r.cols col))) := by
  constructor
  · intro hout
    rw [quarterlyValueAt_of_idx h, if_neg (by omega)]
  · intro j hj r hr
    have hjlen : j < qd.length := by
      rcases List.get?_eq_some.mp hr with ⟨hlt, -⟩
      exact hlt
    rw [quarterlyValueAt_of_idx h, if_pos (by omega)]
    have he : ((i : Int) + shift).toNat = j := by omega
    rw [he, hr]
    rfl

/-- C8 witness: an offset of one million walks off the example's
three-quarter history and yields null, not an error. -/
theorem C8_wit :
    firstMatchIdx 3 (exQD.map Row.date) = some 0 ∧
    quarterlyValueAt "v" 1000000 exQD 3 = some none := by
  have h : firstMatchIdx 3 (exQD.map Row.date) = some 0 := by decide
  exact ⟨h, (C8_thm h).1 (by decide)⟩

/-- C9: `QuarterlyBinDiffTarget.calculate` returns 1.0 on a request row
whose un-normalised quarterly difference is positive, 0.0 when it is
negative, and leaves the row null when the difference is null — nulls
are excluded from the sign test, never coerced to 0.0 or 1.0. -/
theorem C9_thm {col : String} {loader : String → List Row}
    {info : List (String × ℚ)} {out : List TRow}
    (h : quarterlyBinDiffCalculate col loader info = some out)
    {i : Nat} {p : String × ℚ} (hp : info.get? i = some p) :
    (∀ v : ℚ, subOpt (quarterlyValueOf col 0 loader p.1 p.2)
        (quarterlyValueOf col (-1) loader p.1 p.2) = some v →
      (0 < v → out.get? i = some (p.1, p.2, some 1)) ∧
      (v < 0 → out.get? i = some (p.1, p.2, some 0))) ∧
    (subOpt (quarterlyValueOf col 0 loader p.1 p.2)
        (quarterlyValueOf col (-1) loader p.1 p.2) = none →
      out.get? i = some (p.1, p.2, none)) := by
  have hout := binDiff_spec h
  subst hout
  constructor
  · intro v hv
    constructor
    · intro hpos
      rw [List.get?_map, hp]
      simp [binEncode, hv, hpos]
    · intro hneg
      rw [List.get?_map, hp]
      have hnpos : ¬ (0 < v) := not_lt.mpr (le_of_lt hneg)
      simp [binEncode, hv, hnpos]
  · intro hnone
    rw [List.get?_map, hp]
    simp [binEncode, hnone]

/-- C9 witness: a quarterly difference of +5 is encoded as 1.0. -/
theorem C9_wit :
    quarterlyBinDiffCalculate "v" exL9 [("A", 1)] =
      some [("A", 1, some 1)] ∧
    subOpt (quarterlyValueOf "v" 0 exL9 "A" 1)
      (quarterlyValueOf "v" (-1) exL9 "A" 1) = some 5 ∧
    ([("A", (1 : ℚ), some (1 : ℚ))] : List TRow).get? 0 =
      some ("A", 1, some 1) := by
  have h1 : quarterlyBinDiffCalculate "v" exL9 [("A", 1)] =
      some [("A", 1, some (if (0 : ℚ) < 10 - 5 then 1 else 0))] := rfl
  have h : quarterlyBinDiffCalculate "v" exL9 [("A", 1)] =
      some [("A", 1, some 1)] := by
    rw [h1]
    norm_num
  have hp : ([("A", (1 : ℚ))]).get? 0 = some ("A", 1) := rfl
  have hs0 : subOpt (quarterlyValueOf "v" 0 exL9 "A" 1)
      (quarterlyValueOf "v" (-1) exL9 "A" 1) = some (10 - 5) := rfl
  have hs : subOpt (quarterlyValueOf "v" 0 exL9 "A" 1)
      (quarterlyValueOf "v" (-1) exL9 "A" 1) = some 5 := by
    rw [hs0]
    norm_num
  exact ⟨h, hs, ((C9_thm h hp).1 5 hs).1 (by norm_num)⟩

/-- C10: a request row whose un-normalised quarterly difference is
exactly zero is encoded as 0.0 — the sign test is strictly
greater-than-zero, so no change classifies with decreases. -/
theorem C10_thm {col : String} {loader : String → List Row}
    {info : List (String × ℚ)} {out : List TRow}
    (h : quarterlyBinDiffCalculate col loader info = some out)
    {i : Nat} {p : String × ℚ} (hp : info.get? i = some p)
    (hz : subOpt (quarterlyValueOf col 0 loader p.1 p.2)
      (quarterlyValueOf col (-1) loader p.1 p.2) = some 0) :
    out.get? i = some (p.1, p.2, some 0) := by
  have hout := binDiff_spec h
  subst hout
  rw [List.get?_map, hp]
  simp [binEncode, hz]

/-- C10 witness: a constant column gives a zero quarterly difference,
encoded as 0.0. -/
theorem C10_wit :
    quarterlyBinDiffCalculate "v" exL10 [("B", 1)] =
      some [("B", 1, some 0)] ∧
    subOpt (quarterlyValueOf "v" 0 exL10 "B" 1)
      (quarterlyValueOf "v" (-1) exL10 "B" 1) = some 0 ∧
    ([("B", (1 : ℚ), some (0 : ℚ))] : List TRow).get? 0 =
      some ("B", 1, some 0) := by
  have h1 : quarterlyBinDiffCalculate "v" exL10 [("B", 1)] =
      some [("B", 1, some (if (0 : ℚ) < 7 - 7 then 1 else 0))] := rfl
  have h : quarterlyBinDiffCalculate "v" exL10 [("B", 1)] =
      some [("B", 1, some 0)] := by
    rw [h1]
    norm_num
  have hp : ([("B", (1 : ℚ))]).get? 0 = some ("B", 1) := rfl
  have hs0 : subOpt (quarterlyValueOf "v" 0 exL10 "B" 1)
      (quarterlyValueOf "v" (-1) exL10 "B" 1) = some (7 - 7) := rfl
  have hs : subOpt (quarterlyValueOf "v" 0 exL10 "B" 1)
      (quarterlyValueOf "v" (-1) exL10 "B" 1) = some 0 := by
    rw [hs0]
    norm_num
  exact ⟨h, hs, C10_thm h hp hs⟩
